import Mathlib

/-!
# Shallow embedding of the grippenet/geojson choropleth widget

This file embeds the data model and the data-manipulating operations of the
widget (template binding, data normalization, palette resolution, variable
selection and the style computation) as executable Lean definitions, and proves
the specification claims about them.

Modelling conventions:
* JS strings are lists of characters (`Str`).
* JS numbers are rationals; `Option ℚ` stands for `number` values that may be
  `NaN` (`none` = NaN).  JSON decimal data is exactly representable.
* JS objects and `Map`s holding data records are association lists in insertion
  order with first-match lookup (JSON objects have distinct keys).
* DOM construction, leaflet calls and network transfers are outside the model;
  the functions below compute exactly the data these effects consume.
-/

set_option autoImplicit false

abbrev Str : Type := List Char

/-- JS scalar record values (`number | string | boolean`, type `Scalar` in the
source). -/
inductive Scalar where
  | num (q : ℚ)
  | str (s : Str)
  | bool (b : Bool)
deriving DecidableEq

/-- Decimal digit character for `n < 10`. -/
def digitChar (n : ℕ) : Char := Char.ofNat (48 + n)

/-- Decimal digits of a natural number (fuel-structured so that it evaluates in
the kernel). -/
def natToStrAux : ℕ → ℕ → Str
  | 0, _ => []
  | fuel + 1, n => if n < 10 then [digitChar n] else natToStrAux fuel (n / 10) ++ [digitChar (n % 10)]

def natToStr (n : ℕ) : Str := natToStrAux (n + 1) n

def intToStr (i : ℤ) : Str := if i < 0 then '-' :: natToStr i.natAbs else natToStr i.toNat

/-- JS `'' + q` for a number.  Integers of magnitude at most `2^53` print as
their decimal digits, exactly as JS prints them.  JS would print a non-integral
number as a decimal float expansion and a huge one in exponent form; those are
rendered here as `num/den` resp. plain decimal, and `numOk` below confines every
theorem that relies on string forms to the faithful integer region. -/
def qToStr (q : ℚ) : Str :=
  if q.den = 1 then intToStr q.num else intToStr q.num ++ '/' :: natToStr q.den

/-- JS string conversion `'' + v` of a scalar. -/
def scalarToStr : Scalar → Str
  | .num q => qToStr q
  | .str s => s
  | .bool b => if b then "true".toList else "false".toList

/-- JS truthiness of a scalar (`0`, `''` and `false` are falsy). -/
def truthy : Scalar → Bool
  | .num q => if q = 0 then false else true
  | .str s => !s.isEmpty
  | .bool b => b

def isDigitChar (c : Char) : Bool := '0' ≤ c && c ≤ '9'

def digitsVal (l : Str) : ℕ := l.foldl (fun acc c => acc * 10 + (c.toNat - 48)) 0

/-- The code points stripped by JS string-to-number coercion: `WhiteSpace`
(TAB, VT, FF, SP, NBSP, ZWNBSP and the Unicode `Zs` spaces) and
`LineTerminator` (LF, CR, LS, PS). -/
def isJsWs (c : Char) : Bool :=
  c.val = 0x9 || c.val = 0xA || c.val = 0xB || c.val = 0xC || c.val = 0xD || c.val = 0x20 ||
  c.val = 0xA0 || c.val = 0x1680 || (0x2000 ≤ c.val && c.val ≤ 0x200A) ||
  c.val = 0x2028 || c.val = 0x2029 || c.val = 0x202F || c.val = 0x205F || c.val = 0x3000 ||
  c.val = 0xFEFF

/-- Strip leading and trailing JS whitespace. -/
def trimJsWs (s : Str) : Str :=
  ((s.dropWhile isJsWs).reverse.dropWhile isJsWs).reverse

def isHexDigit (c : Char) : Bool :=
  isDigitChar c || ('a' ≤ c && c ≤ 'f') || ('A' ≤ c && c ≤ 'F')

def isBinDigit (c : Char) : Bool := c = '0' || c = '1'

def isOctDigit (c : Char) : Bool := '0' ≤ c && c ≤ '7'

def hexDigitVal (c : Char) : ℕ :=
  if isDigitChar c then c.toNat - 48
  else if 'a' ≤ c && c ≤ 'f' then c.toNat - 87
  else c.toNat - 55

def digitsValBase (base : ℕ) (l : Str) : ℕ :=
  l.foldl (fun acc c => acc * base + hexDigitVal c) 0

/-- `mant · 10 ^ ex` as an exact rational (built with `Nat` powers and `mkRat`
so that it evaluates in the kernel). -/
def decValue (mant : ℕ) (ex : ℤ) : ℚ :=
  if 0 ≤ ex then ((mant * 10 ^ ex.toNat : ℕ) : ℚ) else mkRat (mant : ℤ) (10 ^ (-ex).toNat)

/-- `ExponentPart` after the `e`/`E`: an optionally signed nonempty digit run. -/
def parseExpDigits : Str → Option ℤ
  | [] => none
  | c :: ds =>
    if c = '+' then
      if ds ≠ [] ∧ ds.all isDigitChar then some ((digitsVal ds : ℕ) : ℤ) else none
    else if c = '-' then
      if ds ≠ [] ∧ ds.all isDigitChar then some (-((digitsVal ds : ℕ) : ℤ)) else none
    else if (c :: ds).all isDigitChar then some ((digitsVal (c :: ds) : ℕ) : ℤ) else none

/-- `StrUnsignedDecimalLiteral`: digits, an optional point with further digits
(at least one digit on some side of the point), and an optional exponent. -/
def parseUnsignedDec (s : Str) : Option ℚ :=
  match s.dropWhile isDigitChar with
  | [] => if s.takeWhile isDigitChar = [] then none else some ((digitsVal s : ℕ) : ℚ)
  | '.' :: rest2 =>
    if s.takeWhile isDigitChar = [] ∧ rest2.takeWhile isDigitChar = [] then none
    else
      match rest2.dropWhile isDigitChar with
      | [] =>
        some (decValue (digitsVal (s.takeWhile isDigitChar ++ rest2.takeWhile isDigitChar))
          (-((rest2.takeWhile isDigitChar).length : ℤ)))
      | e :: rest4 =>
        if e = 'e' ∨ e = 'E' then
          match parseExpDigits rest4 with
          | some ex =>
            some (decValue (digitsVal (s.takeWhile isDigitChar ++ rest2.takeWhile isDigitChar))
              (ex - ((rest2.takeWhile isDigitChar).length : ℤ)))
          | none => none
        else none
  | e :: rest2 =>
    if (e = 'e' ∨ e = 'E') ∧ s.takeWhile isDigitChar ≠ [] then
      match parseExpDigits rest2 with
      | some ex => some (decValue (digitsVal (s.takeWhile isDigitChar)) ex)
      | none => none
    else none

/-- `StrDecimalLiteral`: an optional sign before the unsigned literal. -/
def parseSignedDec : Str → Option ℚ
  | [] => none
  | c :: rest =>
    if c = '+' then parseUnsignedDec rest
    else if c = '-' then (parseUnsignedDec rest).map (fun q => -q)
    else parseUnsignedDec (c :: rest)

/-- JS unary `+` applied to a string (`StringNumericLiteral`): surrounding
whitespace is stripped, the empty remainder is `0`, `0x`/`0b`/`0o` literals
are unsigned non-decimal integers, and otherwise an optionally signed decimal
literal with fraction and exponent is parsed; anything else is `NaN`
(`none`).  Values are exact rationals: the final IEEE-754 rounding of the
parsed value (observable only for literals with more significant digits than
a double holds) is floating-point behaviour outside this model, and the
infinite values of `"Infinity"` literals are mapped to `none` — no operation
modelled here distinguishes them from NaN (`colorLabel` rejects both, the
first as falsy, the second as out of range). -/
def strToNumber (s : Str) : Option ℚ :=
  match trimJsWs s with
  | [] => some 0
  | '0' :: x :: rest =>
    if x = 'x' ∨ x = 'X' then
      if rest ≠ [] ∧ rest.all isHexDigit then some ((digitsValBase 16 rest : ℕ) : ℚ) else none
    else if x = 'b' ∨ x = 'B' then
      if rest ≠ [] ∧ rest.all isBinDigit then some ((digitsValBase 2 rest : ℕ) : ℚ) else none
    else if x = 'o' ∨ x = 'O' then
      if rest ≠ [] ∧ rest.all isOctDigit then some ((digitsValBase 8 rest : ℕ) : ℚ) else none
    else parseSignedDec ('0' :: x :: rest)
  | t => parseSignedDec t

/-- JS unary `+` (number coercion) of a scalar; `none` is NaN. -/
def toNumber : Scalar → Option ℚ
  | .num q => some q
  | .bool b => some (if b then 1 else 0)
  | .str s => strToNumber s

/-- First-match association-list lookup: JS object / `Map` key access. -/
def lookupA {κ α : Type} [DecidableEq κ] (k : κ) : List (κ × α) → Option α
  | [] => none
  | (k', v) :: rest => if k = k' then some v else lookupA k rest

/-- JS `Map.set`: overwrite in place when the key is present, append otherwise. -/
def mapSet {α : Type} : List (Str × α) → Str → α → List (Str × α)
  | [], k, v => [(k, v)]
  | (k', v') :: rest, k, v => if k = k' then (k, v) :: rest else (k', v') :: mapSet rest k v

/-! ## The template engine -/

/-- Character class of the source regular expression `/\{([_a-zA-z0-9]+)\}/g`.
The source writes `A-z`, so the class also contains the ASCII codepoints
between `Z` and `a` (`[`, `\`, `]`, `^`, `_` and the backquote). -/
def isNameChar (c : Char) : Bool :=
  c = '_' || ('a' ≤ c && c ≤ 'z') || ('A' ≤ c && c ≤ 'z') || ('0' ≤ c && c ≤ '9')

/-- All matches of `template.match(regexpVars)`, in order, each including its
braces.  JS scans left to right, restarting one position further on failure and
after a match on success; since a match must start at `'{'` and contains no
second `'{'`, advancing one character at a time (as done here) produces the
same list of matches. -/
def scanVars : Str → List Str
  | [] => []
  | c :: rest =>
    (if c = '{' then
      match rest.dropWhile isNameChar with
      | '}' :: _ =>
        if rest.takeWhile isNameChar = [] then [] else ['{' :: rest.takeWhile isNameChar ++ ['}']]
      | _ => []
    else []) ++ scanVars rest

/-- `m.replace(/\{|\}/g, '')`: delete every brace. -/
def stripBraces (s : Str) : Str := s.filter (fun c => !(c = '{' || c = '}'))

/-- Left fold of `if (has) skip else push`, i.e. `Map` insertion order with a
membership check: keeps the first occurrence of each element. -/
def dkfAux {α : Type} [DecidableEq α] : List α → List α → List α
  | acc, [] => acc
  | acc, a :: as => if a ∈ acc then dkfAux acc as else dkfAux (acc ++ [a]) as

def dedupKeepFirst {α : Type} [DecidableEq α] (l : List α) : List α := dkfAux [] l

/-- The `Template` class: the raw template string together with the placeholder
map (placeholder with braces ↦ variable name), in insertion order. -/
structure Template where
  template : Str
  vars : List (Str × Str)
deriving DecidableEq

/-- The `Template` constructor. -/
def mkTemplate (t : Str) : Template :=
  ⟨t, (dedupKeepFirst (scanVars t)).map (fun m => (m, stripBraces m))⟩

/-- `pat` is a prefix of `s` (character-by-character test). -/
def strLeads : Str → Str → Bool
  | [], _ => true
  | _ :: _, [] => false
  | p :: ps, c :: cs => p == c && strLeads ps cs

/-- ECMAScript `GetSubstitution` for a *string* pattern (zero capture groups):
`$$` yields `$`, `$&` the matched string, `$` followed by code point 96 (the
backquote) the part of the subject before the match, `$'` the part after it.
Any other `$` is copied literally, which also covers the remaining table
entries: with no captures `$n` is kept as literal text, and `$<` (undefined
named captures) is likewise copied, in both cases followed by ordinary
literal characters. -/
def getSubstitution (matched before after : Str) : Str → Str
  | [] => []
  | c :: rest =>
    if c ≠ '$' then c :: getSubstitution matched before after rest
    else
      match rest with
      | [] => ['$']
      | c2 :: rest2 =>
        if c2 = '$' then '$' :: getSubstitution matched before after rest2
        else if c2 = '&' then matched ++ getSubstitution matched before after rest2
        else if c2.val = 96 then before ++ getSubstitution matched before after rest2
        else if c2 = '\'' then after ++ getSubstitution matched before after rest2
        else '$' :: c2 :: getSubstitution matched before after rest2

/-- Scan for the first occurrence of `pat`; `pre` accumulates the part of the
subject already passed over.  On a match the result is the prefix, the
substituted replacement, and the remainder. -/
def replaceFirstFrom (pat rep : Str) : Str → Str → Str
  | pre, [] => if strLeads pat [] then pre ++ getSubstitution pat pre [] rep else pre
  | pre, c :: s =>
    if strLeads pat (c :: s) then
      pre ++ getSubstitution pat pre ((c :: s).drop pat.length) rep ++ (c :: s).drop pat.length
    else replaceFirstFrom pat rep (pre ++ [c]) s

/-- JS `String.prototype.replace` with a *string* pattern: replaces the first
occurrence only (the whole string is returned unchanged when the pattern does
not occur), substituting `$`-escapes in the replacement string. -/
def replaceFirst (pat rep s : Str) : Str := replaceFirstFrom pat rep [] s

/-- `Template.bind`: for each recorded placeholder whose variable name is a key
of `data`, replace (the first occurrence of) the placeholder in the current
text by the string form of the bound value. -/
def Template.bind (tpl : Template) (data : List (Str × Scalar)) : Str :=
  tpl.vars.foldl (fun txt pv =>
    match lookupA pv.2 data with
    | some v => replaceFirst pv.1 (scalarToStr v) txt
    | none => txt) tpl.template

/-! ### Specification-side view of templates as token lists -/

/-- A template segment: literal text or a placeholder `{n}`. -/
inductive Tok where
  | lit (s : Str)
  | ph (n : Str)
deriving DecidableEq

/-- The placeholder string `{n}` of a variable name. -/
def phStr (n : Str) : Str := '{' :: n ++ ['}']

def renderTok : Tok → Str
  | .lit s => s
  | .ph n => phStr n

def renderToks : List Tok → Str
  | [] => []
  | t :: ts => renderTok t ++ renderToks ts

/-- A wellformed placeholder name: nonempty, all characters in the regex class. -/
def wfName (n : Str) : Bool := !n.isEmpty && n.all isNameChar

/-- A wellformed segment: literals carry no `'{'` (every placeholder-opening
brace of the rendered template belongs to a `ph` segment), placeholders carry
wellformed names. -/
def wfTok : Tok → Bool
  | .lit s => !decide ('{' ∈ s)
  | .ph n => wfName n

def wfToks (toks : List Tok) : Bool := toks.all wfTok

/-- A numeric value whose JS string form the integer printing of `qToStr`
reproduces exactly: an integer of magnitude at most `2^53` (doubles represent
these exactly and JS prints them in plain decimal). -/
def numOk : Scalar → Bool
  | .num q => decide (q.den = 1) && decide (q.num.natAbs ≤ 2 ^ 53)
  | _ => true

/-- Domain condition on the bound values: the string form contains no `'{'`
(it can neither fabricate nor hide a placeholder) and no `'$'` (no
`GetSubstitution` escape fires), and numeric values are integral in the
float-exact range, so that the model's string form is the program's. -/
def valsOk (d : List (Str × Scalar)) : Bool :=
  d.all (fun p =>
    !decide ('{' ∈ scalarToStr p.2) && !decide ('$' ∈ scalarToStr p.2) && numOk p.2)

/-- The names of the placeholder segments, in order. -/
def phNames : List Tok → List Str
  | [] => []
  | .lit _ :: ts => phNames ts
  | .ph n :: ts => n :: phNames ts

/-- Specification-side substitution: replace, for each placeholder name that is
bound in `d` and not in `seen`, the first `ph` segment carrying it by the
literal string form of its bound value; later occurrences and unbound
placeholders are kept verbatim. -/
def substFirst (d : List (Str × Scalar)) (seen : List Str) : List Tok → List Tok
  | [] => []
  | .lit s :: ts => .lit s :: substFirst d seen ts
  | .ph n :: ts =>
    if n ∈ seen then .ph n :: substFirst d seen ts
    else
      match lookupA n d with
      | some v => .lit (scalarToStr v) :: substFirst d (n :: seen) ts
      | none => .ph n :: substFirst d (n :: seen) ts

/-- Replace the first `ph n` segment by the literal `val` (identity when `n`
does not occur). -/
def replacePh1 (n val : Str) : List Tok → List Tok
  | [] => []
  | .lit s :: ts => .lit s :: replacePh1 n val ts
  | .ph m :: ts => if m = n then .lit val :: ts else .ph m :: replacePh1 n val ts

/-- Apply `replacePh1` for each bound name of `ns` in order. -/
def applyNames (d : List (Str × Scalar)) (ns : List Str) (toks : List Tok) : List Tok :=
  ns.foldl (fun tk n =>
    match lookupA n d with
    | some v => replacePh1 n (scalarToStr v) tk
    | none => tk) toks

/-- `n ++ ['}']` with `n` a (possibly empty) run of name characters. -/
def phTailNE : Str → Bool
  | [] => false
  | c :: rest => if rest = [] then c = '}' else isNameChar c && phTailNE rest

/-- `m` is a full match of the placeholder regular expression:
`'{'`, a nonempty run of name characters, `'}'`. -/
def isPlaceholder : Str → Bool
  | x :: c :: rest => x = '{' && isNameChar c && phTailNE (c :: rest)
  | _ => false

/-- `m` occurs as a contiguous substring of `t`. -/
def occursIn (m t : Str) : Prop := ∃ u v, t = u ++ m ++ v

/-! ## DataView -/

/-- The `Variable` interface: name of the colour attribute, title, optional
popup template, colour labels. -/
structure Variable where
  color : Str
  title : Str
  popup : Option Str
  labels : List Str
deriving DecidableEq

/-- JS `arr[x - 1]` for a number `x`: an element precisely when `x - 1` is a
nonnegative integer below the length — i.e. `x` is an integer (`den = 1`) with
`num ≥ 1` — and `undefined` (`none`) for fractional, too-small or too-large
indices. -/
def jsGetSub1 (l : List Str) (q : ℚ) : Option Str :=
  if q.den = 1 ∧ 1 ≤ q.num then l[q.num.toNat - 1]? else none

/-- `DataView.colorLabel`: label of a 1-indexed colour value.  The argument is
the already-coerced number (`none` = NaN, which is falsy).  The guard
`!this.variable.labels` of the source can only fire on a malformed `Variable`
whose `labels` is undefined, which the typed model cannot represent. -/
def colorLabel (labels : List Str) (index : Option ℚ) : Option Str :=
  match index with
  | none => none
  | some q =>
    if q = 0 then none
    else if 0 < q ∧ q ≤ (labels.length : ℚ) then jsGetSub1 labels q
    else none

/-- The automatically created attribute key `'_label_'`. -/
def labelKey : Str := "_label_".toList

/-- `DataView.updateVariable`: a popup template exists exactly when the
variable's popup string is present and truthy (nonempty). -/
def popupTemplateOf (v : Variable) : Option Template :=
  match v.popup with
  | some p => if p.isEmpty then none else some (mkTemplate p)
  | none => none

/-- Per-record body of the `DataView` constructor loop: copy the attribute
record and, when the colour attribute is present and truthy, set `'_label_'` to
the colour label of its coerced value (empty string when there is none). -/
def dataViewRecord (v : Variable) (rec : List (Str × Scalar)) : List (Str × Scalar) :=
  match lookupA v.color rec with
  | some cv =>
    if truthy cv then mapSet rec labelKey (.str ((colorLabel v.labels (toNumber cv)).getD []))
    else rec
  | none => rec

/-- The `DataView` state: per-feature attribute records, current variable,
derived popup template. -/
structure DataViewState where
  data : List (Str × List (Str × Scalar))
  variable' : Variable
  popupTemplate : Option Template
deriving DecidableEq

/-- The `DataView` constructor. -/
def mkDataView (data : List (Str × List (Str × Scalar))) (v : Variable) : DataViewState :=
  ⟨data.map (fun e => (e.1, dataViewRecord v e.2)), v, popupTemplateOf v⟩

/-- `DataView.setVariable` (which calls `updateVariable`). -/
def setVariable (dv : DataViewState) (v : Variable) : DataViewState :=
  { dv with variable' := v, popupTemplate := popupTemplateOf v }

/-! ## ChoroMap -/

/-- The `ColorPalette` interface. -/
structure ColorPalette where
  name : Option Str
  label : Option Str
  colors : Option (List Str)
  opacity : Option ℚ
deriving DecidableEq

/-- A data layer (`LayerView`): per-feature attribute records indexed by
feature code. -/
structure LayerView where
  data : List (Str × List (Str × Scalar))
deriving DecidableEq

/-- The `colors` field of the input: a palette size (`number`) or an explicit
colour list (`string[]`), distinguished by `Array.isArray`. -/
inductive ColorsField where
  | count (n : ℚ)
  | list (cs : List Str)
deriving DecidableEq

/-- `InputMapData`: the heterogeneous on-the-wire shape. -/
structure InputMapData where
  data : Option (List (Str × ℚ))
  colors : ColorsField
  labels : Option (List Str)
  variables' : Option (List Variable)
  palettes : Option (List ColorPalette)
  layout : Str
  defaultLayer : Option ℚ
  layers : Option (List LayerView)
  defaultOpacity : Option ℚ
deriving DecidableEq

/-- `MapData`: the normalized shape stored on the widget. -/
structure MapData where
  variables' : List Variable
  palettes : List ColorPalette
  n_colors : ℚ
  layout : Str
  layers : List LayerView
  defaultLayer : ℚ
  defaultOpacity : Option ℚ
deriving DecidableEq

/-- `FranceChoroMapOpts`. -/
structure FranceChoroMapOpts where
  width : Option Str
  height : Option Str
  data : Str
  layout : Str
  flavor : Option Str
  selectorLabel : Option Str
  defaultOpacity : Option ℚ
deriving DecidableEq

/-- The mutable state of a `ChoroMap` instance (DOM handles reduced to the
presence bit `hasLayer` for the geoJSON layer that `updateStyle` requires). -/
structure ChoroState where
  opts : FranceChoroMapOpts
  data : Option MapData
  dataView : Option DataViewState
  dataLayerIndex : ℚ
  variableIndex : ℤ
  palette : ℕ
  palettes : List ColorPalette
  hasLayer : Bool
deriving DecidableEq

/-- The `ChoroMap` constructor. -/
def mkChoroMap (opts : FranceChoroMapOpts) : ChoroState :=
  ⟨opts, none, none, 0, 0, 0, [], false⟩

/-- The named-palette table of the `colors` module (`colorPalettes.palettes`,
ColorBrewer data).  The module is data only and not among the sources, so it is
passed as an explicit parameter: palette name ↦ (scale size ↦ colour list). -/
abbrev PaletteTable : Type := List (Str × List (ℚ × List Str))

/-- `get_palette`: resolve a named palette at a given scale size. -/
def get_palette (tbl : PaletteTable) (name : Str) (length : ℚ) : Option (List Str) :=
  match lookupA name tbl with
  | none => none
  | some p => lookupA length p

/-- `ChoroMap.importData`: normalize the input to a `MapData`.  The legacy
single-view shape (`input.data` present) becomes one synthetic variable `'c'`
and one layer with records `{ c: value }`; otherwise variables and layers come
from the input (defaulting to `[]`).  When either list is empty the method
logs an error and leaves `this.data` unset (but `this.palette` has already
been reset). -/
def importData (input : InputMapData) (st : ChoroState) : ChoroState :=
  let vars : List Variable :=
    match input.data with
    | some _ => [⟨['c'], [], none, input.labels.getD []⟩]
    | none => input.variables'.getD []
  let layers : List LayerView :=
    match input.data with
    | some d => [⟨d.map (fun e => (e.1, [(['c'], Scalar.num e.2)]))⟩]
    | none => input.layers.getD []
  let pn : List ColorPalette × ℚ :=
    match input.colors with
    | .list cs => ([⟨none, none, some cs, none⟩], (cs.length : ℚ))
    | .count n => ([], n)
  let palettes : List ColorPalette :=
    match input.palettes with
    | some ps => ps
    | none => pn.1
  let st' := { st with palette := 0 }
  match layers, vars with
  | [], _ => st'
  | _ :: _, [] => st'
  | l0 :: _, v0 :: _ =>
    { st' with
      data := some ⟨vars, palettes, pn.2, input.layout, layers, 0, input.defaultOpacity⟩,
      dataLayerIndex := 0,
      variableIndex := 0,
      dataView := some (mkDataView l0.data v0) }

/-- `ChoroMap.buildPalettes`: append to `this.palettes`, in definition order,
every palette definition that has explicit colours, and every named definition
whose name resolves at scale size `n_colors`; drop the rest. -/
def buildPalettes (tbl : PaletteTable) (st : ChoroState) : ChoroState :=
  match st.data with
  | none => st
  | some d =>
    { st with
      palettes := d.palettes.foldl (fun acc df =>
        match df.colors with
        | some _ => acc ++ [df]
        | none =>
          match df.name with
          | some nm =>
            match get_palette tbl nm d.n_colors with
            | some cc => acc ++ [{ df with colors := some cc }]
            | none => acc
          | none => acc) st.palettes }

/-- `ChoroMap.selectVariable`.  `updateStyle` (called on success) reads but
does not write the state, so it does not appear here. -/
def selectVariable (st : ChoroState) (index : ℤ) : ChoroState :=
  match st.data, st.dataView with
  | some d, some dv =>
    if 0 ≤ index ∧ index ≤ (d.variables'.length : ℤ) - 1 then
      { st with
        variableIndex := index,
        dataView := some (setVariable dv (d.variables'.getD index.toNat ⟨[], [], none, []⟩)) }
    else st
  | _, _ => st

/-- The literal `0.6` of `updateStyle` (3/5). -/
def fallbackOpacity : ℚ := mkRat 3 5

/-- Second and third branch of `updateStyle`'s `defaultOpacity` closure. -/
def optsOpacityOr (opts : FranceChoroMapOpts) : ℚ :=
  match opts.defaultOpacity with
  | some q => if q = 0 then fallbackOpacity else q
  | none => fallbackOpacity

/-- `updateStyle`'s `defaultOpacity` closure (truthiness checks as in JS). -/
def defaultOpacityOf (st : ChoroState) : ℚ :=
  match st.data.bind MapData.defaultOpacity with
  | some q => if q = 0 then optsOpacityOr st.opts else q
  | none => optsOpacityOr st.opts

/-- The colour list and fill opacity that `updateStyle` computes for the style
function; `none` on any early return (missing data, data view or layer, or no
useable palette).  Legend and selector DOM updates are outside the model. -/
def updateStyleSpec (st : ChoroState) : Option (List Str × ℚ) :=
  match st.data, st.dataView with
  | some _, some _ =>
    if st.hasLayer then
      match st.palettes[st.palette]? with
      | some p =>
        match p.colors with
        | some cs =>
          some (cs,
            match p.opacity with
            | some q => if q = 0 then defaultOpacityOf st else q
            | none => defaultOpacityOf st)
        | none => none
      | none => none
    else none
  | _, _ => none

/-- The default fill colour `'#EEEEEE'`. -/
def defaultColor : Str := "#EEEEEE".toList

/-- A leaflet path style as produced by the installed style function. -/
structure PathStyle where
  color : Option Str
  stroke : Bool
  fillOpacity : ℚ
deriving DecidableEq

/-- The style closure `updateStyle` installs via `setStyle`: from the palette
colours, the fill opacity and the feature's colour value (`none` = no value,
`some none` = NaN), compute the path style `{ color, stroke: false,
fillOpacity }`. -/
def styleFor (colors : List Str) (fillOpacity : ℚ) (v : Option (Option ℚ)) : PathStyle :=
  match v with
  | some (some q) =>
    if 1 ≤ q ∧ q ≤ (colors.length : ℚ) then ⟨jsGetSub1 colors q, false, fillOpacity⟩
    else ⟨some defaultColor, false, fillOpacity⟩
  | _ => ⟨some defaultColor, false, fillOpacity⟩

/-- How `loadLayout` sources the layout: parse the URL as JSON, or fetch it as
a binary buffer and decode it with the geobuf codec. -/
inductive LayoutSource where
  | jsonUrl (url : Str)
  | geobufUrl (url : Str)
deriving DecidableEq

/-- `ChoroMap.loadLayout` up to I/O: the codec choice and the URL used. -/
def loadLayout (opts : FranceChoroMapOpts) : LayoutSource :=
  if opts.flavor.getD "geojson".toList = "geojson".toList then .jsonUrl opts.layout
  else .geobufUrl opts.layout

/-- Specification-side description of one step of `buildPalettes`: a definition
with explicit colours is kept unchanged, a named definition is resolved from
the table at the requested scale size, and definitions with neither colours
nor a resolvable name are dropped. -/
def resolvePalette (tbl : PaletteTable) (n_colors : ℚ) (df : ColorPalette) : Option ColorPalette :=
  match df.colors with
  | some _ => some df
  | none =>
    match df.name with
    | some nm => (get_palette tbl nm n_colors).map (fun cc => { df with colors := some cc })
    | none => none

/-! ### Concrete sample values used by the witness theorems -/

def demoOpts : FranceChoroMapOpts := ⟨none, none, [], [], none, none, none⟩

def demoVariable : Variable := ⟨['c'], [], none, [['L']]⟩

def demoPalette : ColorPalette := ⟨none, none, some [['a'], ['b']], none⟩

def demoMapData : MapData := ⟨[demoVariable], [], 2, [], [⟨[]⟩], 0, none⟩

def demoState : ChoroState :=
  { mkChoroMap demoOpts with
    data := some demoMapData
    dataView := some (mkDataView [] demoVariable)
    palettes := [demoPalette]
    hasLayer := true }

def demoTable : PaletteTable := [(['B'], [(2, [['x'], ['y']])])]

def demoMapData2 : MapData :=
  { demoMapData with
    palettes := [⟨some ['B'], none, none, none⟩, ⟨none, none, some [['e']], none⟩,
      ⟨some ['z'], none, none, none⟩, ⟨none, none, none, none⟩] }

def demoState2 : ChoroState := { demoState with data := some demoMapData2 }

def demoInput : InputMapData :=
  ⟨some [(['0', '1'], 1)], .count 2, some [['l'], ['h']], none, none, ['u'], none, none, none⟩

/-! ## Basic lemmas about the template engine -/

theorem isNameChar_lbrace : isNameChar '{' = false := by decide

theorem isNameChar_rbrace : isNameChar '}' = false := by decide

theorem ne_of_nameChar_lbrace {c : Char} (h : isNameChar c = true) : c ≠ '{' := by
  intro hc; subst hc; simp [isNameChar_lbrace] at h

theorem ne_of_nameChar_rbrace {c : Char} (h : isNameChar c = true) : c ≠ '}' := by
  intro hc; subst hc; simp [isNameChar_rbrace] at h

theorem wfName_iff {n : Str} : wfName n = true ↔ n ≠ [] ∧ ∀ c ∈ n, isNameChar c = true := by
  cases n <;> simp [wfName, List.all_eq_true]

theorem wfName_no_lbrace {n : Str} (h : wfName n = true) : '{' ∉ n := by
  intro hm
  exact ne_of_nameChar_lbrace ((wfName_iff.mp h).2 _ hm) rfl

theorem phStr_ne_nil {n : Str} : phStr n ≠ [] := by simp [phStr]

theorem phStr_inj {n m : Str} (h : phStr n = phStr m) : n = m := by
  simpa [phStr] using h

theorem wfToks_cons {t : Tok} {ts : List Tok} :
    wfToks (t :: ts) = (wfTok t && wfToks ts) := by
  simp [wfToks]

theorem strLeads_append_self (p r : Str) : strLeads p (p ++ r) = true := by
  induction p with
  | nil => rfl
  | cons c cs ih => simp [strLeads, ih]

theorem strLeads_ne_head {p : Char} {ps : Str} {c : Char} {s : Str} (h : p ≠ c) :
    strLeads (p :: ps) (c :: s) = false := by
  simp [strLeads, h]

theorem strLeads_phTail_false :
    ∀ (m : Str) {n : Str} (r : Str), wfName n = true → (∀ c ∈ m, isNameChar c = true) →
      n ≠ m → strLeads (n ++ ['}']) (m ++ '}' :: r) = false := by
  intro m
  induction m with
  | nil =>
    intro n r hn _ hne
    obtain ⟨hne', hall⟩ := wfName_iff.mp hn
    match n, hne' with
    | a :: n', _ =>
      rw [List.cons_append, List.nil_append]
      exact strLeads_ne_head (ne_of_nameChar_rbrace (hall a (by simp)))
  | cons b m' ih =>
    intro n r hn hm hne
    obtain ⟨hne', hall⟩ := wfName_iff.mp hn
    match n, hne' with
    | a :: n', _ =>
      by_cases hab : a = b
      · subst hab
        rw [List.cons_append, List.cons_append, strLeads]
        simp only [beq_self_eq_true, Bool.true_and]
        cases n' with
        | nil =>
          cases m' with
          | nil => exact absurd rfl hne
          | cons c m'' =>
            rw [List.nil_append, List.cons_append]
            exact strLeads_ne_head fun h =>
              ne_of_nameChar_rbrace (hm c (by simp)) h.symm
        | cons c' n'' =>
          cases m' with
          | nil =>
            rw [List.nil_append, List.cons_append]
            exact strLeads_ne_head (ne_of_nameChar_rbrace (hall c' (by simp)))
          | cons c m'' =>
            refine ih r ?_ ?_ ?_
            · exact wfName_iff.mpr ⟨by simp, fun x hx => hall x (by simp [hx])⟩
            · exact fun x hx => hm x (by simp [hx])
            · exact fun h => hne (by rw [h])
      · exact strLeads_ne_head hab

theorem strLeads_phStr_false {n m : Str} (r : Str) (hn : wfName n = true)
    (hm : wfName m = true) (hne : n ≠ m) :
    strLeads (phStr n) (phStr m ++ r) = false := by
  have h1 : phStr m ++ r = '{' :: (m ++ '}' :: r) := by simp [phStr]
  have h2 : phStr n = '{' :: (n ++ ['}']) := by simp [phStr]
  rw [h1, h2, strLeads]
  simp only [beq_self_eq_true, Bool.true_and]
  exact strLeads_phTail_false m r hn ((wfName_iff.mp hm).2) hne

theorem renderToks_cons (t : Tok) (ts : List Tok) :
    renderToks (t :: ts) = renderTok t ++ renderToks ts := rfl

theorem getSubstitution_no_dollar {rep : Str} (h : '$' ∉ rep) (matched before after : Str) :
    getSubstitution matched before after rep = rep := by
  induction rep with
  | nil => rfl
  | cons c rest ih =>
    have hc : c ≠ '$' := fun he => h (he ▸ List.mem_cons_self c rest)
    have hrest : '$' ∉ rest := fun he => h (List.mem_cons_of_mem c he)
    rw [getSubstitution.eq_def]
    simp [hc, ih hrest]

theorem replaceFirstFrom_nil_of_ne {p : Char} {ps : Str} (rep pre : Str) :
    replaceFirstFrom (p :: ps) rep pre [] = pre := by
  simp [replaceFirstFrom, strLeads]

theorem replaceFirstFrom_skip_head {h : Char} {pp : Str} {s : Str} (hs : h ∉ s) (rep r : Str) :
    ∀ pre, replaceFirstFrom (h :: pp) rep pre (s ++ r) =
      replaceFirstFrom (h :: pp) rep (pre ++ s) r := by
  induction s with
  | nil => intro pre; simp
  | cons c cs ih =>
    intro pre
    have hc : h ≠ c := fun he => hs (he ▸ List.mem_cons_self c cs)
    have hcs : h ∉ cs := fun he => hs (List.mem_cons_of_mem c he)
    rw [List.cons_append]
    simp only [replaceFirstFrom]
    rw [strLeads_ne_head hc, if_neg (by simp), ih hcs (pre ++ [c])]
    simp

theorem replaceFirstFrom_match {p : Char} {ps : Str} (rep pre r : Str) :
    replaceFirstFrom (p :: ps) rep pre ((p :: ps) ++ r) =
      pre ++ getSubstitution (p :: ps) pre r rep ++ r := by
  have h := strLeads_append_self (p :: ps) r
  rw [List.cons_append] at h
  rw [List.cons_append]
  simp only [replaceFirstFrom]
  rw [if_pos h]
  simp [List.drop_succ_cons, List.drop_left]

theorem replaceFirstFrom_phStr_lit {n : Str} {s : Str} (hs : '{' ∉ s) (rep r pre : Str) :
    replaceFirstFrom (phStr n) rep pre (s ++ r) =
      replaceFirstFrom (phStr n) rep (pre ++ s) r := by
  have hx : phStr n = '{' :: (n ++ ['}']) := by simp [phStr]
  rw [hx]
  exact replaceFirstFrom_skip_head hs rep r pre

theorem replaceFirstFrom_phStr_self (n : Str) (rep pre r : Str) :
    replaceFirstFrom (phStr n) rep pre (phStr n ++ r) =
      pre ++ getSubstitution (phStr n) pre r rep ++ r := by
  have hx : phStr n = '{' :: (n ++ ['}']) := by simp [phStr]
  rw [hx]
  exact replaceFirstFrom_match rep pre r

theorem replaceFirstFrom_phStr_skip {n m : Str} (hn : wfName n = true) (hm : wfName m = true)
    (hne : n ≠ m) (rep r pre : Str) :
    replaceFirstFrom (phStr n) rep pre (phStr m ++ r) =
      replaceFirstFrom (phStr n) rep (pre ++ phStr m) r := by
  have hlb : '{' ∉ m ++ ['}'] := by
    intro hmem
    rcases List.mem_append.mp hmem with h | h
    · exact wfName_no_lbrace hm h
    · simp at h
  have hcond := strLeads_phStr_false r hn hm hne
  have hx : phStr m ++ r = '{' :: ((m ++ ['}']) ++ r) := by simp [phStr]
  have hxn : phStr n = '{' :: (n ++ ['}']) := by simp [phStr]
  have hy : pre ++ phStr m = (pre ++ ['{']) ++ (m ++ ['}']) := by simp [phStr]
  rw [hx] at hcond
  rw [hxn] at hcond
  rw [hx, hxn, hy]
  simp only [replaceFirstFrom]
  rw [hcond, if_neg (by simp), replaceFirstFrom_skip_head hlb rep r (pre ++ ['{'])]

/-- First-occurrence replacement on the rendered string is replacement of the
first matching placeholder segment; the replacement value carries no `'$'`
(so `GetSubstitution` copies it verbatim) and, via `wfToks`, every literal is
free of `'{'`. -/
theorem replaceFirstFrom_render {n rep : Str} (hn : wfName n = true) (hrep : '$' ∉ rep) :
    ∀ {toks : List Tok}, wfToks toks = true → ∀ pre,
      replaceFirstFrom (phStr n) rep pre (renderToks toks) =
        pre ++ renderToks (replacePh1 n rep toks) := by
  intro toks
  induction toks with
  | nil =>
    intro _ pre
    have hx : phStr n = '{' :: (n ++ ['}']) := by simp [phStr]
    show replaceFirstFrom (phStr n) rep pre [] = _
    rw [hx, replaceFirstFrom_nil_of_ne]
    simp [replacePh1, renderToks]
  | cons t ts ih =>
    intro hwf pre
    rw [wfToks_cons, Bool.and_eq_true] at hwf
    obtain ⟨hwt, hwts⟩ := hwf
    cases t with
    | lit s =>
      have hs : '{' ∉ s := by simpa [wfTok] using hwt
      rw [renderToks_cons, renderTok, replaceFirstFrom_phStr_lit hs, ih hwts (pre ++ s)]
      simp [replacePh1, renderToks_cons, renderTok]
    | ph m =>
      have hm : wfName m = true := by simpa [wfTok] using hwt
      by_cases hmn : m = n
      · subst hmn
        rw [renderToks_cons, renderTok, replaceFirstFrom_phStr_self,
          getSubstitution_no_dollar hrep]
        simp [replacePh1, renderToks_cons, renderTok]
      · rw [renderToks_cons, renderTok,
          replaceFirstFrom_phStr_skip hn hm (fun h => hmn h.symm), ih hwts (pre ++ phStr m)]
        simp [replacePh1, hmn, renderToks_cons, renderTok]

theorem replaceFirst_render {n val : Str} (hn : wfName n = true) (hval : '$' ∉ val) :
    ∀ {toks : List Tok}, wfToks toks = true →
      replaceFirst (phStr n) val (renderToks toks) = renderToks (replacePh1 n val toks) := by
  intro toks hwf
  rw [replaceFirst, replaceFirstFrom_render hn hval hwf []]
  simp

/-- `replacePh1` with a brace-free value preserves wellformedness. -/
theorem wfToks_replacePh1 {n val : Str} (hval : '{' ∉ val) :
    ∀ {toks : List Tok}, wfToks toks = true → wfToks (replacePh1 n val toks) = true := by
  intro toks
  induction toks with
  | nil => intro _; rfl
  | cons t ts ih =>
    intro hwf
    rw [wfToks_cons, Bool.and_eq_true] at hwf
    obtain ⟨hwt, hwts⟩ := hwf
    cases t with
    | lit s =>
      rw [replacePh1, wfToks_cons, Bool.and_eq_true]
      exact ⟨hwt, ih hwts⟩
    | ph m =>
      by_cases hmn : m = n
      · subst hmn
        rw [replacePh1, if_pos rfl, wfToks_cons, Bool.and_eq_true]
        exact ⟨by simpa [wfTok] using hval, hwts⟩
      · rw [replacePh1, if_neg hmn, wfToks_cons, Bool.and_eq_true]
        exact ⟨hwt, ih hwts⟩

/-! ## Lemmas about the placeholder scan -/

theorem takeWhile_run {p : Char → Bool} {n : Str} {x : Char} (r : Str)
    (hall : ∀ c ∈ n, p c = true) (hx : p x = false) :
    (n ++ x :: r).takeWhile p = n := by
  induction n with
  | nil => simp [List.takeWhile_cons, hx]
  | cons c cs ih =>
    rw [List.cons_append, List.takeWhile_cons, hall c (by simp)]
    rw [ih (fun c hc => hall c (by simp [hc]))]
    simp

theorem dropWhile_run {p : Char → Bool} {n : Str} {x : Char} (r : Str)
    (hall : ∀ c ∈ n, p c = true) (hx : p x = false) :
    (n ++ x :: r).dropWhile p = x :: r := by
  induction n with
  | nil => simp [List.dropWhile_cons, hx]
  | cons c cs ih =>
    rw [List.cons_append, List.dropWhile_cons, hall c (by simp)]
    exact ih (fun c hc => hall c (by simp [hc]))

theorem scanVars_cons_ne {c : Char} (rest : Str) (hc : c ≠ '{') :
    scanVars (c :: rest) = scanVars rest := by
  rw [scanVars, if_neg hc, List.nil_append]

theorem scanVars_append_nolb {s : Str} (hs : '{' ∉ s) (r : Str) :
    scanVars (s ++ r) = scanVars r := by
  induction s with
  | nil => rfl
  | cons c cs ih =>
    have hc : c ≠ '{' := fun he => hs (he ▸ List.mem_cons_self c cs)
    have hcs : '{' ∉ cs := fun he => hs (List.mem_cons_of_mem c he)
    rw [List.cons_append, scanVars_cons_ne _ hc, ih hcs]

theorem scanVars_ph {n : Str} (hn : wfName n = true) (r : Str) :
    scanVars ('{' :: (n ++ '}' :: r)) = phStr n :: scanVars r := by
  obtain ⟨hne, hall⟩ := wfName_iff.mp hn
  have htw := takeWhile_run (p := isNameChar) r hall isNameChar_rbrace
  have hdw := dropWhile_run (p := isNameChar) r hall isNameChar_rbrace
  have hnol : '{' ∉ n ++ ['}'] := by
    intro hmem
    rcases List.mem_append.mp hmem with h | h
    · exact wfName_no_lbrace hn h
    · simp at h
  have hsplit : n ++ '}' :: r = (n ++ ['}']) ++ r := by simp
  rw [scanVars, if_pos rfl, htw, hdw, hsplit, scanVars_append_nolb hnol r]
  simp [phStr, hne]

theorem scanVars_render : ∀ {toks : List Tok}, wfToks toks = true →
    scanVars (renderToks toks) = (phNames toks).map phStr := by
  intro toks
  induction toks with
  | nil => intro _; rfl
  | cons t ts ih =>
    intro hwf
    rw [wfToks_cons, Bool.and_eq_true] at hwf
    obtain ⟨hwt, hwts⟩ := hwf
    cases t with
    | lit s =>
      have hs : '{' ∉ s := by simpa [wfTok] using hwt
      rw [renderToks_cons, renderTok, scanVars_append_nolb hs, ih hwts]
      rfl
    | ph m =>
      have hm : wfName m = true := by simpa [wfTok] using hwt
      have hx : renderToks (Tok.ph m :: ts) = '{' :: (m ++ '}' :: renderToks ts) := by
        simp [renderToks_cons, renderTok, phStr]
      rw [hx, scanVars_ph hm, ih hwts]
      rfl

/-! ## Characterization of placeholder matches -/

theorem phTailNE_append {n : Str} (hall : ∀ c ∈ n, isNameChar c = true) :
    phTailNE (n ++ ['}']) = true := by
  induction n with
  | nil => simp [phTailNE]
  | cons c cs ih =>
    rw [List.cons_append, phTailNE, if_neg (by simp)]
    simp [hall c (by simp), ih (fun x hx => hall x (by simp [hx]))]

theorem phTailNE_iff {s : Str} :
    phTailNE s = true ↔ ∃ n, (∀ c ∈ n, isNameChar c = true) ∧ s = n ++ ['}'] := by
  constructor
  · intro h
    induction s with
    | nil => simp [phTailNE] at h
    | cons c rest ih =>
      by_cases hr : rest = []
      · subst hr
        rw [phTailNE, if_pos rfl] at h
        have : c = '}' := by simpa using h
        exact ⟨[], by simp, by simp [this]⟩
      · rw [phTailNE, if_neg hr, Bool.and_eq_true] at h
        obtain ⟨n', hall', heq⟩ := ih h.2
        exact ⟨c :: n', by
          intro x hx
          rcases List.mem_cons.mp hx with rfl | hx
          · exact h.1
          · exact hall' x hx, by simp [heq]⟩
  · rintro ⟨n, hall, rfl⟩
    exact phTailNE_append hall

theorem isPlaceholder_phStr {n : Str} (hn : wfName n = true) :
    isPlaceholder (phStr n) = true := by
  obtain ⟨hne, hall⟩ := wfName_iff.mp hn
  match n, hne with
  | c :: n', _ =>
    have hx : phStr (c :: n') = '{' :: c :: (n' ++ ['}']) := by simp [phStr]
    have hy : c :: (n' ++ ['}']) = (c :: n') ++ ['}'] := by simp
    rw [hx, isPlaceholder, hall c (by simp), hy, phTailNE_append hall]
    simp

theorem isPlaceholder_iff {m : Str} :
    isPlaceholder m = true ↔ ∃ n, wfName n = true ∧ m = phStr n := by
  constructor
  · intro h
    match m with
    | [] => simp [isPlaceholder] at h
    | [x] => simp [isPlaceholder] at h
    | x :: y :: rest =>
      rw [isPlaceholder, Bool.and_eq_true, Bool.and_eq_true] at h
      obtain ⟨⟨hx, hy⟩, htail⟩ := h
      have hx' : x = '{' := by simpa using hx
      obtain ⟨n0, hall0, heq0⟩ := phTailNE_iff.mp htail
      match n0, heq0 with
      | [], heq0 =>
        exfalso
        have : y = '}' := by
          have := heq0
          simp at this
          exact this.1
        exact ne_of_nameChar_rbrace hy this
      | c0 :: n0', heq0 =>
        refine ⟨c0 :: n0', wfName_iff.mpr ⟨by simp, hall0⟩, ?_⟩
        simp [phStr, hx', heq0]
  · rintro ⟨n, hn, rfl⟩
    exact isPlaceholder_phStr hn

theorem occursIn_cons {m : Str} {c : Char} {t : Str} (h : occursIn m t) : occursIn m (c :: t) := by
  obtain ⟨u, v, rfl⟩ := h
  exact ⟨c :: u, v, rfl⟩

theorem mem_scanVars_tail {m : Str} {c : Char} {rest : Str} (h : m ∈ scanVars rest) :
    m ∈ scanVars (c :: rest) := by
  rw [scanVars]
  exact List.mem_append_right _ h

/-- Every match produced by the scan is a placeholder occurring in the string. -/
theorem mem_scanVars : ∀ {t m : Str}, m ∈ scanVars t → isPlaceholder m = true ∧ occursIn m t := by
  intro t
  induction t with
  | nil => intro m h; simp [scanVars] at h
  | cons c rest ih =>
    intro m h
    by_cases hc : c = '{'
    · subst hc
      rw [scanVars, if_pos rfl] at h
      rcases List.mem_append.mp h with h1 | h1
      · split at h1
        · by_cases htw : rest.takeWhile isNameChar = []
          · rw [if_pos htw] at h1; simp at h1
          · rw [if_neg htw] at h1
            have hm : m = '{' :: rest.takeWhile isNameChar ++ ['}'] := by simpa using h1
            have hall : ∀ x ∈ rest.takeWhile isNameChar, isNameChar x = true :=
              fun x hx => List.mem_takeWhile_imp hx
            have hwn : wfName (rest.takeWhile isNameChar) = true := wfName_iff.mpr ⟨htw, hall⟩
            constructor
            · have hps : ('{' :: rest.takeWhile isNameChar ++ ['}'] : Str) =
                  phStr (rest.takeWhile isNameChar) := by simp [phStr]
              rw [hm, hps]
              exact isPlaceholder_phStr hwn
            · rename_i dtl heq
              refine ⟨[], dtl, ?_⟩
              have hrest : rest = rest.takeWhile isNameChar ++ '}' :: dtl := by
                conv_lhs => rw [← List.takeWhile_append_dropWhile (p := isNameChar) (l := rest)]
                rw [heq]
              conv_lhs => rw [hrest]
              rw [hm]
              simp
        · simp at h1
      · obtain ⟨hp, ho⟩ := ih h1
        exact ⟨hp, occursIn_cons ho⟩
    · rw [scanVars_cons_ne rest hc] at h
      obtain ⟨hp, ho⟩ := ih h
      exact ⟨hp, occursIn_cons ho⟩

/-- Every placeholder occurring in the string is produced by the scan. -/
theorem scanVars_complete : ∀ {t m : Str}, isPlaceholder m = true → occursIn m t →
    m ∈ scanVars t := by
  intro t
  induction t with
  | nil =>
    intro m hp ho
    obtain ⟨n, hn, rfl⟩ := isPlaceholder_iff.mp hp
    obtain ⟨u, v, huv⟩ := ho
    exact absurd huv.symm (by simp [phStr])
  | cons c rest ih =>
    intro m hp ho
    obtain ⟨u, v, huv⟩ := ho
    cases u with
    | nil =>
      obtain ⟨n, hn, rfl⟩ := isPlaceholder_iff.mp hp
      simp only [List.nil_append] at huv
      have hx : phStr n ++ v = '{' :: (n ++ '}' :: v) := by simp [phStr]
      rw [huv, hx, scanVars_ph hn]
      exact List.mem_cons_self _ _
    | cons c' u' =>
      rw [List.cons_append, List.cons_append] at huv
      have h1 : rest = u' ++ m ++ v := (List.cons.injEq c rest c' _).mp huv |>.2
      exact mem_scanVars_tail (ih hp ⟨u', v, h1⟩)

/-! ## Lemmas about keep-first deduplication -/

theorem mem_dkfAux {α : Type} [DecidableEq α] {m : α} :
    ∀ {l acc : List α}, m ∈ dkfAux acc l ↔ m ∈ acc ∨ m ∈ l := by
  intro l
  induction l with
  | nil => intro acc; simp [dkfAux]
  | cons a as ih =>
    intro acc
    rw [dkfAux]
    by_cases ha : a ∈ acc
    · rw [if_pos ha, ih]
      constructor
      · rintro (h | h)
        · exact Or.inl h
        · exact Or.inr (List.mem_cons_of_mem a h)
      · rintro (h | h)
        · exact Or.inl h
        · rcases List.mem_cons.mp h with rfl | h
          · exact Or.inl ha
          · exact Or.inr h
    · rw [if_neg ha, ih]
      constructor
      · rintro (h | h)
        · rcases List.mem_append.mp h with h | h
          · exact Or.inl h
          · simp at h
            exact Or.inr (h ▸ List.mem_cons_self a as)
        · exact Or.inr (List.mem_cons_of_mem a h)
      · rintro (h | h)
        · exact Or.inl (List.mem_append_left _ h)
        · rcases List.mem_cons.mp h with rfl | h
          · exact Or.inl (List.mem_append_right _ (by simp))
          · exact Or.inr h

theorem mem_dedupKeepFirst {α : Type} [DecidableEq α] {m : α} {l : List α} :
    m ∈ dedupKeepFirst l ↔ m ∈ l := by
  rw [dedupKeepFirst, mem_dkfAux]
  simp

theorem nodup_dkfAux {α : Type} [DecidableEq α] :
    ∀ {l acc : List α}, acc.Nodup → (dkfAux acc l).Nodup := by
  intro l
  induction l with
  | nil => intro acc h; exact h
  | cons a as ih =>
    intro acc hacc
    rw [dkfAux]
    by_cases ha : a ∈ acc
    · rw [if_pos ha]; exact ih hacc
    · rw [if_neg ha]
      refine ih ?_
      rw [List.nodup_append]
      refine ⟨hacc, List.nodup_singleton a, ?_⟩
      intro x hx
      simp only [List.mem_singleton]
      intro hxa
      exact ha (hxa ▸ hx)

theorem nodup_dedupKeepFirst {α : Type} [DecidableEq α] {l : List α} :
    (dedupKeepFirst l).Nodup := nodup_dkfAux List.nodup_nil

theorem dkfAux_shift_fuel {α : Type} [DecidableEq α] :
    ∀ (k : ℕ) (l acc : List α), l.length ≤ k →
      dkfAux acc l = acc ++ dkfAux [] (l.filter (fun x => x ∉ acc)) := by
  intro k
  induction k with
  | zero =>
    intro l acc hl
    have hnil : l = [] := List.length_eq_zero.mp (Nat.le_zero.mp hl)
    subst hnil
    simp [dkfAux]
  | succ k ih =>
    intro l acc hl
    match l with
    | [] => simp [dkfAux]
    | a :: as =>
      have has : as.length ≤ k := by simpa using hl
      rw [dkfAux]
      by_cases ha : a ∈ acc
      · rw [if_pos ha, List.filter_cons, if_neg (by simp [ha]), ih as acc has]
      · rw [if_neg ha, List.filter_cons, if_pos (by simp [ha]), ih as (acc ++ [a]) has]
        have h1 : dkfAux ([] : List α) (a :: as.filter (fun x => x ∉ acc)) =
            dkfAux [a] (as.filter (fun x => x ∉ acc)) := by
          rw [dkfAux, if_neg (by simp)]
          rfl
        have hlen : (as.filter (fun x => x ∉ acc)).length ≤ k :=
          le_trans (List.length_filter_le _ _) has
        rw [h1, ih (as.filter (fun x => x ∉ acc)) [a] hlen, List.filter_filter]
        have hpred : ∀ x, (decide (x ∉ [a]) && decide (x ∉ acc)) = decide (x ∉ acc ++ [a]) := by
          intro x
          by_cases hx1 : x ∈ acc <;> by_cases hx2 : x = a <;> simp [List.mem_append, hx1, hx2]
        simp only [hpred]
        simp [List.append_assoc]

theorem dkfAux_shift {α : Type} [DecidableEq α] (l acc : List α) :
    dkfAux acc l = acc ++ dkfAux [] (l.filter (fun x => x ∉ acc)) :=
  dkfAux_shift_fuel l.length l acc le_rfl

theorem dedupKeepFirst_cons {α : Type} [DecidableEq α] (a : α) (l : List α) :
    dedupKeepFirst (a :: l) = a :: dedupKeepFirst (l.filter (fun x => x ≠ a)) := by
  rw [dedupKeepFirst, dkfAux, if_neg (by simp), dkfAux_shift]
  have hpred : ∀ x : α, (decide (x ∉ ([] : List α) ++ [a])) = decide (x ≠ a) := by
    intro x
    by_cases h : x = a <;> simp [h]
  simp only [hpred]
  rfl

theorem dkfAux_map {α β : Type} [DecidableEq α] [DecidableEq β] {f : α → β}
    (hf : ∀ x y, f x = f y → x = y) :
    ∀ (l acc : List α), dkfAux (acc.map f) (l.map f) = (dkfAux acc l).map f := by
  intro l
  induction l with
  | nil => intro acc; simp [dkfAux]
  | cons a as ih =>
    intro acc
    rw [List.map_cons, dkfAux, dkfAux]
    by_cases ha : a ∈ acc
    · rw [if_pos (List.mem_map_of_mem f ha), if_pos ha, ih]
    · have hna : f a ∉ List.map f acc := by
        intro hmem
        obtain ⟨x, hx, hfx⟩ := List.mem_map.mp hmem
        exact ha (hf x a hfx ▸ hx)
      rw [if_neg hna, if_neg ha]
      have hx : List.map f acc ++ [f a] = List.map f (acc ++ [a]) := by simp
      rw [hx]
      exact ih (acc ++ [a])

theorem dedupKeepFirst_map {α β : Type} [DecidableEq α] [DecidableEq β] {f : α → β}
    (hf : ∀ x y, f x = f y → x = y) (l : List α) :
    dedupKeepFirst (l.map f) = (dedupKeepFirst l).map f := by
  rw [dedupKeepFirst, dedupKeepFirst, ← dkfAux_map hf]
  rfl

/-! ## From the fold of replacements to the segment-wise substitution -/

theorem lookupA_mem {κ α : Type} [DecidableEq κ] {k : κ} {v : α} :
    ∀ {l : List (κ × α)}, lookupA k l = some v → (k, v) ∈ l := by
  intro l
  induction l with
  | nil => intro h; simp [lookupA] at h
  | cons p rest ih =>
    intro h
    match p with
    | (k', v') =>
      rw [lookupA] at h
      by_cases hk : k = k'
      · rw [if_pos hk] at h
        subst hk
        obtain rfl : v' = v := by simpa using h
        exact List.mem_cons_self _ _
      · rw [if_neg hk] at h
        exact List.mem_cons_of_mem _ (ih h)

theorem stripBraces_all_name {n : Str} (hall : ∀ c ∈ n, isNameChar c = true) :
    stripBraces n = n := by
  rw [stripBraces, List.filter_eq_self]
  intro c hc
  simp [ne_of_nameChar_lbrace (hall c hc), ne_of_nameChar_rbrace (hall c hc)]

theorem stripBraces_phStr {n : Str} (hn : wfName n = true) : stripBraces (phStr n) = n := by
  have hall := (wfName_iff.mp hn).2
  have hx : phStr n = '{' :: (n ++ ['}']) := by simp [phStr]
  rw [hx, stripBraces, List.filter_cons, List.filter_append]
  have h1 : (decide ¬('{' = '{' ∨ '{' = '}') : Bool) = false := by simp
  have h2 : List.filter (fun c => !(c = '{' || c = '}')) ['}'] = [] := by simp
  simp only [h1]
  rw [h2, ← stripBraces, stripBraces_all_name hall]
  simp

theorem mem_phNames_wf {toks : List Tok} (hwf : wfToks toks = true) {n : Str}
    (hn : n ∈ phNames toks) : wfName n = true := by
  induction toks with
  | nil => simp [phNames] at hn
  | cons t ts ih =>
    rw [wfToks_cons, Bool.and_eq_true] at hwf
    cases t with
    | lit s => exact ih hwf.2 (by simpa [phNames] using hn)
    | ph m =>
      rw [phNames] at hn
      rcases List.mem_cons.mp hn with rfl | hn
      · simpa [wfTok] using hwf.1
      · exact ih hwf.2 hn

theorem applyNames_nil (d : List (Str × Scalar)) :
    ∀ (ns : List Str), applyNames d ns [] = [] := by
  intro ns
  induction ns with
  | nil => rfl
  | cons n ns ih =>
    rw [applyNames, List.foldl_cons]
    cases hl : lookupA n d with
    | none => simpa [applyNames, hl] using ih
    | some v => simpa [applyNames, hl, replacePh1] using ih

theorem applyNames_cons_lit (d : List (Str × Scalar)) (s : Str) :
    ∀ (ns : List Str) (ts : List Tok),
      applyNames d ns (.lit s :: ts) = .lit s :: applyNames d ns ts := by
  intro ns
  induction ns with
  | nil => intro ts; rfl
  | cons n ns ih =>
    intro ts
    rw [applyNames, List.foldl_cons, applyNames, List.foldl_cons]
    cases hl : lookupA n d with
    | none => exact ih ts
    | some v =>
      simp only [replacePh1]
      exact ih (replacePh1 n (scalarToStr v) ts)

theorem applyNames_cons_ph_notmem (d : List (Str × Scalar)) {n : Str} :
    ∀ {ns : List Str}, n ∉ ns → ∀ (ts : List Tok),
      applyNames d ns (.ph n :: ts) = .ph n :: applyNames d ns ts := by
  intro ns
  induction ns with
  | nil => intro _ ts; rfl
  | cons m ns ih =>
    intro hn ts
    have hmn : n ≠ m := fun h => hn (h ▸ List.mem_cons_self m ns)
    have hns : n ∉ ns := fun h => hn (List.mem_cons_of_mem m h)
    rw [applyNames, List.foldl_cons, applyNames, List.foldl_cons]
    cases hl : lookupA m d with
    | none => exact ih hns ts
    | some v =>
      simp only [replacePh1]
      rw [if_neg hmn]
      exact ih hns (replacePh1 m (scalarToStr v) ts)

theorem replacePh1_ph_self (n val : Str) (ts : List Tok) :
    replacePh1 n val (.ph n :: ts) = .lit val :: ts := by
  simp [replacePh1]

theorem applyNames_cons_some {d : List (Str × Scalar)} {n : Str} {v : Scalar}
    (hl : lookupA n d = some v) (ns : List Str) (toks : List Tok) :
    applyNames d (n :: ns) toks = applyNames d ns (replacePh1 n (scalarToStr v) toks) := by
  rw [applyNames, List.foldl_cons, hl]
  rfl

theorem applyNames_cons_none {d : List (Str × Scalar)} {n : Str}
    (hl : lookupA n d = none) (ns : List Str) (toks : List Tok) :
    applyNames d (n :: ns) toks = applyNames d ns toks := by
  rw [applyNames, List.foldl_cons, hl]
  rfl

/-- Applying the replacements name by name (in first-occurrence order, each
distinct name once) is the segment-wise first-occurrence substitution. -/
theorem applyNames_eq_substFirst (d : List (Str × Scalar)) :
    ∀ (ts : List Tok) (S : List Str),
      applyNames d (dedupKeepFirst ((phNames ts).filter (fun x => x ∉ S))) ts =
        substFirst d S ts := by
  intro ts
  induction ts with
  | nil => intro S; simp only [substFirst]; exact applyNames_nil d _
  | cons t ts ih =>
    intro S
    cases t with
    | lit s =>
      simp only [phNames, substFirst]
      rw [applyNames_cons_lit, ih S]
    | ph n =>
      by_cases hS : n ∈ S
      · simp only [phNames, substFirst, List.filter_cons]
        rw [if_neg (by simpa using hS), if_pos hS]
        have hnm : n ∉ dedupKeepFirst ((phNames ts).filter (fun x => x ∉ S)) := by
          intro hmem
          have h1 := (List.mem_filter.mp (mem_dedupKeepFirst.mp hmem)).2
          simp at h1
          exact h1 hS
        rw [applyNames_cons_ph_notmem d hnm, ih S]
      · have hfilters : ((phNames ts).filter (fun x => x ∉ S)).filter (fun x => x ≠ n) =
            (phNames ts).filter (fun x => x ∉ n :: S) := by
          rw [List.filter_filter]
          have hpred : ∀ x : Str, (decide (x ≠ n) && decide (x ∉ S)) = decide (x ∉ n :: S) := by
            intro x
            by_cases h1 : x = n <;> by_cases h2 : x ∈ S <;> simp [h1, h2]
          simp only [hpred]
        simp only [phNames, substFirst, List.filter_cons]
        rw [if_pos (by simpa using hS), if_neg hS, dedupKeepFirst_cons, hfilters]
        cases hl : lookupA n d with
        | some v =>
          rw [applyNames_cons_some hl, replacePh1_ph_self, applyNames_cons_lit, ih (n :: S)]
        | none =>
          have hnm : n ∉ dedupKeepFirst ((phNames ts).filter (fun x => x ∉ n :: S)) := by
            intro hmem
            have h1 := (List.mem_filter.mp (mem_dedupKeepFirst.mp hmem)).2
            simp at h1
          rw [applyNames_cons_none hl, applyNames_cons_ph_notmem d hnm, ih (n :: S)]

/-- The fold of `Template.bind` over the (placeholder, name) pairs equals
`applyNames` on the segments. -/
theorem foldl_bindStep_eq (d : List (Str × Scalar)) :
    ∀ (ns : List Str) (toks : List Tok), wfToks toks = true →
      (∀ x ∈ ns, wfName x = true) → valsOk d = true →
      (ns.map (fun n => (phStr n, n))).foldl (fun txt pv =>
        match lookupA pv.2 d with
        | some v => replaceFirst pv.1 (scalarToStr v) txt
        | none => txt) (renderToks toks) = renderToks (applyNames d ns toks) := by
  intro ns
  induction ns with
  | nil => intro toks _ _ _; rfl
  | cons n ns ih =>
    intro toks hwf hns hd
    have hn : wfName n = true := hns n (by simp)
    have hns' : ∀ x ∈ ns, wfName x = true := fun x hx => hns x (by simp [hx])
    simp only [List.map_cons, List.foldl_cons]
    cases hl : lookupA n d with
    | none =>
      rw [applyNames_cons_none hl, ← ih toks hwf hns' hd]
    | some v =>
      have hmem := lookupA_mem hl
      have hall := List.all_eq_true.mp hd _ hmem
      rw [Bool.and_eq_true, Bool.and_eq_true] at hall
      have hv : '{' ∉ scalarToStr v := by simpa using hall.1.1
      have hv2 : '$' ∉ scalarToStr v := by simpa using hall.1.2
      simp only [hl]
      rw [replaceFirst_render hn hv2 hwf, applyNames_cons_some hl,
        ih (replacePh1 n (scalarToStr v) toks) (wfToks_replacePh1 hv hwf) hns' hd]

theorem mkTemplate_render_vars {toks : List Tok} (hwf : wfToks toks = true) :
    (mkTemplate (renderToks toks)).vars =
      (dedupKeepFirst (phNames toks)).map (fun n => (phStr n, n)) := by
  simp only [mkTemplate]
  rw [scanVars_render hwf, dedupKeepFirst_map (fun x y h => phStr_inj h), List.map_map]
  apply List.map_congr_left
  intro n hn
  have hwn : wfName n = true := mem_phNames_wf hwf (mem_dedupKeepFirst.mp hn)
  simp [stripBraces_phStr hwn]

/-- Central lemma: on a wellformed segment list with brace-free bound values,
`Template.bind` performs exactly the first-occurrence substitution. -/
theorem bind_eq_substFirst {toks : List Tok} {d : List (Str × Scalar)}
    (hwf : wfToks toks = true) (hd : valsOk d = true) :
    Template.bind (mkTemplate (renderToks toks)) d = renderToks (substFirst d [] toks) := by
  rw [Template.bind]
  have htpl : (mkTemplate (renderToks toks)).template = renderToks toks := rfl
  rw [htpl, mkTemplate_render_vars hwf]
  have hns : ∀ x ∈ dedupKeepFirst (phNames toks), wfName x = true :=
    fun x hx => mem_phNames_wf hwf (mem_dedupKeepFirst.mp hx)
  rw [foldl_bindStep_eq d _ toks hwf hns hd]
  have hfe : (phNames toks).filter (fun x => x ∉ ([] : List Str)) = phNames toks := by
    rw [List.filter_eq_self]
    intro a _
    simp
  rw [← hfe, applyNames_eq_substFirst d toks []]

/-! ## Positional behaviour of the first-occurrence substitution -/

theorem substFirst_length (d : List (Str × Scalar)) :
    ∀ (toks : List Tok) (S : List Str), (substFirst d S toks).length = toks.length := by
  intro toks
  induction toks with
  | nil => intro S; rfl
  | cons t ts ih =>
    intro S
    cases t with
    | lit s => simp [substFirst, ih]
    | ph n =>
      by_cases hS : n ∈ S
      · simp [substFirst, hS, ih]
      · cases hl : lookupA n d with
        | some v => simp [substFirst, hS, hl, ih]
        | none => simp [substFirst, hS, hl, ih]

/-- A `ph n` segment that is not the first occurrence of its name (or whose
name is already seen) is kept verbatim. -/
theorem substFirst_get_later (d : List (Str × Scalar)) {n : Str} :
    ∀ (toks : List Tok) (S : List Str) (j : ℕ), toks[j]? = some (.ph n) →
      (n ∈ S ∨ ∃ i, i < j ∧ toks[i]? = some (.ph n)) →
      (substFirst d S toks)[j]? = some (.ph n) := by
  intro toks
  induction toks with
  | nil => intro S j hj _; simp at hj
  | cons t ts ih =>
    intro S j hj hbefore
    cases j with
    | zero =>
      simp only [List.getElem?_cons_zero, Option.some.injEq] at hj
      subst hj
      rcases hbefore with hS | ⟨i, hi, _⟩
      · simp [substFirst, hS]
      · omega
    | succ j =>
      simp only [List.getElem?_cons_succ] at hj
      have htrans : ∀ S' : List Str, S ⊆ S' → (t = .ph n → n ∈ S') →
          (n ∈ S' ∨ ∃ i, i < j ∧ ts[i]? = some (.ph n)) := by
        intro S' hsub hph
        rcases hbefore with hS | ⟨i, hi, hmem⟩
        · exact Or.inl (hsub hS)
        · cases i with
          | zero =>
            simp only [List.getElem?_cons_zero, Option.some.injEq] at hmem
            exact Or.inl (hph hmem)
          | succ i =>
            simp only [List.getElem?_cons_succ] at hmem
            exact Or.inr ⟨i, by omega, hmem⟩
      cases t with
      | lit s =>
        simp only [substFirst, List.getElem?_cons_succ]
        exact ih S j hj (htrans S (fun x h => h) (fun h => Tok.noConfusion h))
      | ph m =>
        by_cases hmS : m ∈ S
        · simp only [substFirst, hmS, if_true, List.getElem?_cons_succ]
          refine ih S j hj (htrans S (fun x h => h) ?_)
          intro h
          injection h with h2
          exact h2 ▸ hmS
        · cases hl : lookupA m d with
          | some v =>
            simp only [substFirst, hmS, if_false, hl, List.getElem?_cons_succ]
            refine ih (m :: S) j hj
              (htrans (m :: S) (fun x h => List.mem_cons_of_mem m h) ?_)
            intro h
            injection h with h2
            exact h2 ▸ List.mem_cons_self m S
          | none =>
            simp only [substFirst, hmS, if_false, hl, List.getElem?_cons_succ]
            refine ih (m :: S) j hj
              (htrans (m :: S) (fun x h => List.mem_cons_of_mem m h) ?_)
            intro h
            injection h with h2
            exact h2 ▸ List.mem_cons_self m S

/-- The first occurrence of a bound placeholder becomes the literal value. -/
theorem substFirst_get_first (d : List (Str × Scalar)) {n : Str} {v : Scalar}
    (hl : lookupA n d = some v) :
    ∀ (toks : List Tok) (S : List Str) (j : ℕ), toks[j]? = some (.ph n) →
      n ∉ S → (∀ i, i < j → toks[i]? ≠ some (.ph n)) →
      (substFirst d S toks)[j]? = some (.lit (scalarToStr v)) := by
  intro toks
  induction toks with
  | nil => intro S j hj; simp at hj
  | cons t ts ih =>
    intro S j hj hS hfirst
    cases j with
    | zero =>
      simp only [List.getElem?_cons_zero, Option.some.injEq] at hj
      subst hj
      simp [substFirst, hS, hl]
    | succ j =>
      simp only [List.getElem?_cons_succ] at hj
      have hne : t ≠ Tok.ph n := by
        intro h
        exact hfirst 0 (by omega) (by simp [h])
      have hfirst' : ∀ i, i < j → ts[i]? ≠ some (.ph n) := by
        intro i hi
        have := hfirst (i + 1) (by omega)
        simpa using this
      cases t with
      | lit s =>
        simp only [substFirst, List.getElem?_cons_succ]
        exact ih S j hj hS hfirst'
      | ph m =>
        have hmn : m ≠ n := fun h => hne (by rw [h])
        have hS' : n ∉ m :: S := by
          intro hmem
          rcases List.mem_cons.mp hmem with h1 | h1
          · exact hmn h1.symm
          · exact hS h1
        by_cases hmS : m ∈ S
        · simp only [substFirst, hmS, if_true, List.getElem?_cons_succ]
          exact ih S j hj hS hfirst'
        · cases hl2 : lookupA m d with
          | some w =>
            simp only [substFirst, hmS, if_false, hl2, List.getElem?_cons_succ]
            exact ih (m :: S) j hj hS' hfirst'
          | none =>
            simp only [substFirst, hmS, if_false, hl2, List.getElem?_cons_succ]
            exact ih (m :: S) j hj hS' hfirst'

/-! ## Record and colour-label lemmas -/

theorem lookupA_map {κ α β : Type} [DecidableEq κ] (k : κ) (f : α → β) :
    ∀ (l : List (κ × α)),
      lookupA k (l.map (fun e => (e.1, f e.2))) = (lookupA k l).map f := by
  intro l
  induction l with
  | nil => rfl
  | cons p rest ih =>
    match p with
    | (k', v') =>
      by_cases hk : k = k'
      · simp [lookupA, hk]
      · simp [lookupA, hk, ih]

theorem buildPalettes_foldl (tbl : PaletteTable) (nc : ℚ) :
    ∀ (ps : List ColorPalette) (acc : List ColorPalette),
      ps.foldl (fun acc df =>
        match df.colors with
        | some _ => acc ++ [df]
        | none =>
          match df.name with
          | some nm =>
            match get_palette tbl nm nc with
            | some cc => acc ++ [{ df with colors := some cc }]
            | none => acc
          | none => acc) acc = acc ++ ps.filterMap (resolvePalette tbl nc) := by
  intro ps
  induction ps with
  | nil => intro acc; simp
  | cons df ps ih =>
    intro acc
    rw [List.foldl_cons, List.filterMap_cons]
    cases hc : df.colors with
    | some cs => simp only [hc, resolvePalette, ih]; simp
    | none =>
      cases hn : df.name with
      | none => simp only [hc, hn, resolvePalette, ih]
      | some nm =>
        cases hg : get_palette tbl nm nc with
        | none => simp only [hc, hn, hg, resolvePalette, Option.map_none', ih]
        | some cc =>
          simp only [hc, hn, hg, resolvePalette, Option.map_some', ih]
          simp

theorem buildPalettes_none {tbl : PaletteTable} {st : ChoroState} (h : st.data = none) :
    buildPalettes tbl st = st := by
  simp only [buildPalettes, h]

theorem buildPalettes_some {tbl : PaletteTable} {st : ChoroState} {d : MapData}
    (h : st.data = some d) :
    buildPalettes tbl st =
      { st with palettes := st.palettes ++ d.palettes.filterMap (resolvePalette tbl d.n_colors) } := by
  simp only [buildPalettes, h]
  rw [buildPalettes_foldl]

theorem resolvePalette_colors_isSome {tbl : PaletteTable} {nc : ℚ} {df p : ColorPalette}
    (h : resolvePalette tbl nc df = some p) : p.colors.isSome = true := by
  cases hc : df.colors with
  | some cs =>
    simp only [resolvePalette, hc] at h
    obtain rfl : df = p := by simpa using h
    simp [hc]
  | none =>
    cases hn : df.name with
    | none => simp [resolvePalette, hc, hn] at h
    | some nm =>
      cases hg : get_palette tbl nm nc with
      | none => simp [resolvePalette, hc, hn, hg] at h
      | some cc =>
        simp only [resolvePalette, hc, hn, hg, Option.map_some', Option.some.injEq] at h
        rw [← h]
        rfl

theorem jsGetSub1_nat {l : List Str} {k : ℕ} (h1 : 1 ≤ k) :
    jsGetSub1 l ((k : ℕ) : ℚ) = l[k - 1]? := by
  have hden : ((k : ℕ) : ℚ).den = 1 := Rat.den_natCast k
  have hnum : ((k : ℕ) : ℚ).num = (k : ℤ) := Rat.num_natCast k
  rw [jsGetSub1, if_pos ⟨hden, by rw [hnum]; exact_mod_cast h1⟩, hnum]
  simp

theorem jsGetSub1_not_int {l : List Str} {q : ℚ} (h : q.den ≠ 1) : jsGetSub1 l q = none := by
  rw [jsGetSub1, if_neg]
  intro hc
  exact h hc.1

/-! # Claim theorems -/

/-- Claim C1 (counterexample).  The claim says `Template.bind` replaces *every*
occurrence of a bound placeholder.  On the template `{a}{a}` with `a ↦ "1"`,
`bind` uses JS `String.replace` with a string pattern, which replaces only the
first occurrence: the result is `1{a}`, not the claimed `11`. -/
theorem C1_counterexample :
    Template.bind (mkTemplate "{a}{a}".toList) [("a".toList, Scalar.str "1".toList)] =
      "1{a}".toList ∧
    ("1{a}".toList : Str) ≠ "11".toList := by
  exact ⟨by decide, by decide⟩

/-- Claim C1 (amended).  For a template assembled from literal segments without
`'{'` and wellformed placeholders, and bound values whose string forms contain
no `'{'` (a substituted value could otherwise fabricate a placeholder) and no
`'$'` (no `GetSubstitution` escape of `String.replace` fires), numeric values
integral in the float-exact range: `Template.bind d` returns the template with,
for each placeholder whose name is a key of `d`, its *first* occurrence
replaced by the string form of the bound value; later occurrences, unbound
placeholders and literal text are unchanged (this is what `substFirst` states
segment-wise). -/
theorem C1_bind_first_occurrence (toks : List Tok) (d : List (Str × Scalar))
    (hwf : wfToks toks = true) (hd : valsOk d = true) :
    Template.bind (mkTemplate (renderToks toks)) d = renderToks (substFirst d [] toks) :=
  bind_eq_substFirst hwf hd

theorem C1_bind_first_occurrence_witness :
    Template.bind
        (mkTemplate (renderToks [Tok.ph "a".toList, Tok.lit " - ".toList, Tok.ph "b".toList]))
        [("a".toList, Scalar.str "1".toList)] =
      renderToks (substFirst [("a".toList, Scalar.str "1".toList)] []
        [Tok.ph "a".toList, Tok.lit " - ".toList, Tok.ph "b".toList]) :=
  C1_bind_first_occurrence _ _ (by decide) (by decide)

/-- Claim C3 (confirmed).  The `Template` constructor records as placeholders
exactly the distinct substrings of the template that match the regular
expression `\{([_a-zA-z0-9]+)\}` (each recorded once), and maps each
placeholder to the name obtained by deleting its braces. -/
theorem C3_template_vars (t : Str) :
    (∀ m : Str, m ∈ (mkTemplate t).vars.map Prod.fst ↔
      (isPlaceholder m = true ∧ occursIn m t)) ∧
    ((mkTemplate t).vars.map Prod.fst).Nodup ∧
    (∀ p ∈ (mkTemplate t).vars, p.2 = stripBraces p.1) := by
  have hkeys : (mkTemplate t).vars.map Prod.fst = dedupKeepFirst (scanVars t) := by
    simp only [mkTemplate, List.map_map]
    have : (Prod.fst ∘ fun m : Str => (m, stripBraces m)) = id := rfl
    rw [this, List.map_id]
  refine ⟨?_, ?_, ?_⟩
  · intro m
    rw [hkeys, mem_dedupKeepFirst]
    constructor
    · exact mem_scanVars
    · intro ⟨hp, ho⟩
      exact scanVars_complete hp ho
  · rw [hkeys]
    exact nodup_dedupKeepFirst
  · intro p hp
    simp only [mkTemplate, List.mem_map] at hp
    obtain ⟨m, _, rfl⟩ := hp
    rfl

theorem C3_template_vars_witness :
    "{a}".toList ∈ (mkTemplate "{a}x{a}".toList).vars.map Prod.fst :=
  ((C3_template_vars "{a}x{a}".toList).1 "{a}".toList).mpr
    ⟨by decide, ⟨[], "x{a}".toList, by decide⟩⟩

/-- Claim C8 (counterexample).  The claim asserts that the first occurrence of a
repeated placeholder is replaced.  With template `{a}{b}{b}` and
`a ↦ "{b}", b ↦ "X"`, the value substituted for `{a}` introduces a new `{b}`
*before* the original ones, and the subsequent replacement hits that copy: the
code yields `X{b}{b}` while first-occurrence substitution in the template
predicts `{b}X{b}`. -/
theorem C8_counterexample :
    Template.bind (mkTemplate "{a}{b}{b}".toList)
        [("a".toList, Scalar.str "{b}".toList), ("b".toList, Scalar.str "X".toList)] =
      "X{b}{b}".toList ∧
    ("X{b}{b}".toList : Str) ≠ "{b}X{b}".toList := by
  exact ⟨by decide, by decide⟩

/-- Claim C8 (amended).  For a wellformed template (brace-free literals,
wellformed placeholder names) and bound values whose string forms contain no
`'{'` and no `'$'` (no replacement-pattern escape fires), numeric values
integral in the float-exact range: when a bound placeholder occurs at positions
`i < j` with `i` its first occurrence, `bind` rewrites the template so that
position `i` holds the bound value and position `j` still holds the placeholder
verbatim. -/
theorem C8_bind_repeated_placeholder (toks : List Tok) (d : List (Str × Scalar))
    (n : Str) (v : Scalar) (i j : ℕ)
    (hwf : wfToks toks = true) (hd : valsOk d = true) (hl : lookupA n d = some v)
    (hi : toks[i]? = some (.ph n)) (hj : toks[j]? = some (.ph n)) (hij : i < j)
    (hfirst : ∀ k, k < i → toks[k]? ≠ some (.ph n)) :
    ∃ out, Template.bind (mkTemplate (renderToks toks)) d = renderToks out ∧
      out.length = toks.length ∧
      out[i]? = some (.lit (scalarToStr v)) ∧
      out[j]? = some (.ph n) := by
  refine ⟨substFirst d [] toks, bind_eq_substFirst hwf hd, substFirst_length d toks [], ?_, ?_⟩
  · exact substFirst_get_first d hl toks [] i hi (by simp) hfirst
  · exact substFirst_get_later d toks [] j hj (Or.inr ⟨i, hij, hi⟩)

theorem C8_bind_repeated_placeholder_witness :
    ∃ out, Template.bind (mkTemplate (renderToks [Tok.ph "a".toList, Tok.ph "a".toList]))
        [("a".toList, Scalar.str "1".toList)] = renderToks out ∧
      out.length = 2 ∧
      out[0]? = some (.lit (scalarToStr (Scalar.str "1".toList))) ∧
      out[1]? = some (.ph "a".toList) :=
  C8_bind_repeated_placeholder [Tok.ph "a".toList, Tok.ph "a".toList]
    [("a".toList, Scalar.str "1".toList)] "a".toList (Scalar.str "1".toList) 0 1
    (by decide) (by decide) (by decide) (by decide) (by decide) (by decide)
    (fun k hk => absurd hk (Nat.not_lt_zero k))

/-- Claim C2 (confirmed).  With the legacy field `data` present, `importData`
normalizes to exactly one layer whose record for each feature code is
`{ c: input.data[id] }` and exactly one variable with colour attribute `'c'`,
empty title and labels `input.labels ?? []`; without it, variables and layers
are taken from the input, each defaulting to `[]` (and when either list is
empty the method returns early, leaving `this.data` unset). -/
theorem C2_importData_normalizes (input : InputMapData) (st : ChoroState) :
    (∀ d, input.data = some d →
      ∃ md, (importData input st).data = some md ∧
        md.variables' = [⟨['c'], [], none, input.labels.getD []⟩] ∧
        md.layers = [⟨d.map (fun e => (e.1, [(['c'], Scalar.num e.2)]))⟩] ∧
        ∀ lv ∈ md.layers, ∀ id,
          lookupA id lv.data = (lookupA id d).map (fun v => [(['c'], Scalar.num v)])) ∧
    (input.data = none →
      ((input.variables'.getD [] = [] ∨ input.layers.getD [] = []) →
        (importData input st).data = st.data) ∧
      (∀ v0 vs l0 ls, input.variables'.getD [] = v0 :: vs → input.layers.getD [] = l0 :: ls →
        ∃ md, (importData input st).data = some md ∧
          md.variables' = input.variables'.getD [] ∧ md.layers = input.layers.getD [])) := by
  constructor
  · intro d hd
    simp only [importData, hd]
    refine ⟨_, rfl, rfl, rfl, ?_⟩
    intro lv hlv id
    simp only [List.mem_singleton] at hlv
    subst hlv
    show lookupA id (d.map (fun e => (e.1, [(['c'], Scalar.num e.2)]))) =
      (lookupA id d).map (fun v => [(['c'], Scalar.num v)])
    exact lookupA_map id (fun v => [(['c'], Scalar.num v)]) d
  · intro hd
    constructor
    · intro hempty
      cases hvs : input.variables'.getD [] with
      | nil =>
        cases hls : input.layers.getD [] with
        | nil => simp only [importData, hd, hvs, hls]
        | cons l0 ls => simp only [importData, hd, hvs, hls]
      | cons v0 vs =>
        cases hls : input.layers.getD [] with
        | nil => simp only [importData, hd, hvs, hls]
        | cons l0 ls =>
          exfalso
          rcases hempty with hv | hl
          · rw [hvs] at hv
            simp at hv
          · rw [hls] at hl
            simp at hl
    · intro v0 vs l0 ls hv hl
      simp only [importData, hd, hv, hl]
      exact ⟨_, rfl, rfl, rfl⟩

theorem C2_importData_normalizes_witness :
    ∃ md, (importData demoInput (mkChoroMap demoOpts)).data = some md ∧
      md.variables' = [⟨['c'], [], none, demoInput.labels.getD []⟩] ∧
      md.layers = [⟨[(['0', '1'], 1)].map (fun e => (e.1, [(['c'], Scalar.num e.2)]))⟩] ∧
      ∀ lv ∈ md.layers, ∀ id,
        lookupA id lv.data =
          (lookupA id [(['0', '1'], (1 : ℚ))]).map (fun v => [(['c'], Scalar.num v)]) :=
  (C2_importData_normalizes demoInput (mkChoroMap demoOpts)).1 [(['0', '1'], 1)] rfl

/-- Claim C5 (confirmed).  For loaded data, `buildPalettes` appends to the
palette list, in definition order, every definition already carrying colours
unchanged, and every named definition whose name resolves at scale size
`n_colors` with the resolved colours; unknown names and definitions with
neither colours nor name are omitted.  (`resolvePalette` states exactly this
per-definition choice.) -/
theorem C5_buildPalettes (tbl : PaletteTable) (st : ChoroState) :
    (st.data = none → buildPalettes tbl st = st) ∧
    (∀ d, st.data = some d →
      buildPalettes tbl st =
        { st with
          palettes := st.palettes ++ d.palettes.filterMap (resolvePalette tbl d.n_colors) }) := by
  constructor
  · intro h
    exact buildPalettes_none h
  · intro d hd
    exact buildPalettes_some hd

theorem C5_buildPalettes_witness :
    buildPalettes demoTable demoState2 =
      { demoState2 with
        palettes := [demoPalette, ⟨some ['B'], none, some [['x'], ['y']], none⟩,
          ⟨none, none, some [['e']], none⟩] } := by
  rw [(C5_buildPalettes demoTable demoState2).2 demoMapData2 rfl]
  decide

/-- Claim C6 (confirmed).  `selectVariable i` updates the variable index and
the data view's variable exactly when data and a data view are present and
`0 ≤ i ≤ variables.length - 1`; in every other case the whole state is
returned unchanged. -/
theorem C6_selectVariable (st : ChoroState) (i : ℤ) :
    ((st.data = none ∨ st.dataView = none) → selectVariable st i = st) ∧
    (∀ md dv, st.data = some md → st.dataView = some dv →
      ((0 ≤ i ∧ i ≤ (md.variables'.length : ℤ) - 1) →
        selectVariable st i =
          { st with
            variableIndex := i,
            dataView := some (setVariable dv (md.variables'.getD i.toNat ⟨[], [], none, []⟩)) }) ∧
      (¬(0 ≤ i ∧ i ≤ (md.variables'.length : ℤ) - 1) → selectVariable st i = st)) := by
  constructor
  · intro h
    rcases h with h | h <;> cases hv : st.dataView <;> cases hdta : st.data <;>
      simp_all [selectVariable]
  · intro md dv hmd hdv
    constructor
    · intro hrange
      simp only [selectVariable, hmd, hdv, if_pos hrange]
    · intro hrange
      simp only [selectVariable, hmd, hdv, if_neg hrange]

theorem C6_selectVariable_witness :
    selectVariable demoState 0 =
      { demoState with
        variableIndex := 0,
        dataView := some (setVariable (mkDataView [] demoVariable)
          (demoMapData.variables'.getD (0 : ℤ).toNat ⟨[], [], none, []⟩)) } :=
  ((C6_selectVariable demoState 0).2 demoMapData (mkDataView [] demoVariable) rfl rfl).1
    (by decide)

/-- Claim C7 (confirmed).  The layout format chosen by `loadLayout` depends
only on `opts.flavor`: `'geojson'` or unset loads the layout URL as JSON, any
other flavor fetches it as a binary buffer decoded with the geobuf codec. -/
theorem C7_loadLayout (opts : FranceChoroMapOpts) :
    ((opts.flavor = none ∨ opts.flavor = some "geojson".toList) →
      loadLayout opts = .jsonUrl opts.layout) ∧
    (∀ f, opts.flavor = some f → f ≠ "geojson".toList →
      loadLayout opts = .geobufUrl opts.layout) ∧
    (∀ opts' : FranceChoroMapOpts, opts.flavor = opts'.flavor → opts.layout = opts'.layout →
      loadLayout opts = loadLayout opts') := by
  refine ⟨?_, ?_, ?_⟩
  · intro h
    rcases h with h | h <;> simp [loadLayout, h]
  · intro f hf hne
    have hne2 : f ≠ ['g', 'e', 'o', 'j', 's', 'o', 'n'] := by
      intro h
      exact hne (by rw [h]; rfl)
    simp [loadLayout, hf, hne2]
  · intro opts' hf hl
    simp [loadLayout, hf, hl]

theorem C7_loadLayout_witness :
    loadLayout demoOpts = .jsonUrl demoOpts.layout ∧
    loadLayout { demoOpts with flavor := some "pbf".toList } =
      .geobufUrl { demoOpts with flavor := some "pbf".toList }.layout :=
  ⟨(C7_loadLayout demoOpts).1 (Or.inl rfl),
   (C7_loadLayout _).2.1 "pbf".toList rfl (by decide)⟩

theorem styleFor_some_some (cs : List Str) (op : ℚ) (q : ℚ) :
    styleFor cs op (some (some q)) =
      if 1 ≤ q ∧ q ≤ (cs.length : ℚ) then ⟨jsGetSub1 cs q, false, op⟩
      else ⟨some defaultColor, false, op⟩ := rfl

/-- Claim C4 (counterexample).  The claim says every value other than an
integral `1 ≤ v ≤ n` gets the default colour `'#EEEEEE'` and the access
`colors[v-1]` is always in bounds.  For the non-integral value `v = 3/2` with
two colours, the range test `1 ≤ v ≤ n` passes and the code evaluates
`colors[0.5]`, which is `undefined` — the installed style carries no colour at
all rather than the default. -/
theorem C4_counterexample :
    updateStyleSpec demoState = some ([['a'], ['b']], fallbackOpacity) ∧
    (styleFor [['a'], ['b']] fallbackOpacity (some (some (mkRat 3 2)))).color = none ∧
    (none : Option Str) ≠ some defaultColor ∧
    (1 : ℚ) ≤ mkRat 3 2 ∧ mkRat 3 2 ≤ (([['a'], ['b']] : List Str).length : ℚ) := by
  exact ⟨by decide, by decide, by decide, by decide, by decide⟩

/-- Claim C4 (amended).  The style function installed by `updateStyle` assigns
`colors[v-1]` (an in-bounds access) when the colour value is an *integer* `k`
with `1 ≤ k ≤ n`, and the default `'#EEEEEE'` when the value is undefined, NaN,
below 1 or above `n`; for a non-integral value inside `[1, n]` the fractional
index yields no colour (`undefined`), not the default.  Stroke is always off
and the fill opacity is the computed one. -/
theorem C4_updateStyle_amended (st : ChoroState) (cs : List Str) (op : ℚ)
    (_hspec : updateStyleSpec st = some (cs, op)) :
    (∀ k : ℕ, 1 ≤ k → (k : ℚ) ≤ (cs.length : ℚ) →
      ∃ c, cs[k - 1]? = some c ∧
        (styleFor cs op (some (some ((k : ℕ) : ℚ)))).color = some c) ∧
    (styleFor cs op none).color = some defaultColor ∧
    (styleFor cs op (some none)).color = some defaultColor ∧
    (∀ q : ℚ, q < 1 ∨ (cs.length : ℚ) < q →
      (styleFor cs op (some (some q))).color = some defaultColor) ∧
    (∀ q : ℚ, 1 ≤ q → q ≤ (cs.length : ℚ) → q.den ≠ 1 →
      (styleFor cs op (some (some q))).color = none) ∧
    (∀ v, (styleFor cs op v).stroke = false ∧ (styleFor cs op v).fillOpacity = op) := by
  refine ⟨?_, rfl, rfl, ?_, ?_, ?_⟩
  · intro k hk1 hk2
    have hkle : k ≤ cs.length := by exact_mod_cast hk2
    have hlt : k - 1 < cs.length := by omega
    obtain ⟨c, hc⟩ : ∃ c, cs[k - 1]? = some c := by
      rw [List.getElem?_eq_getElem hlt]
      exact ⟨_, rfl⟩
    have hcond : (1 : ℚ) ≤ ((k : ℕ) : ℚ) ∧ ((k : ℕ) : ℚ) ≤ (cs.length : ℚ) :=
      ⟨by exact_mod_cast hk1, hk2⟩
    refine ⟨c, hc, ?_⟩
    rw [styleFor_some_some, if_pos hcond, jsGetSub1_nat hk1, hc]
  · intro q hq
    have hcond : ¬(1 ≤ q ∧ q ≤ (cs.length : ℚ)) := by
      rcases hq with h | h
      · intro hc; linarith [hc.1]
      · intro hc; linarith [hc.2]
    rw [styleFor_some_some, if_neg hcond]
  · intro q hq1 hq2 hden
    rw [styleFor_some_some, if_pos ⟨hq1, hq2⟩, jsGetSub1_not_int hden]
  · intro v
    match v with
    | none => exact ⟨rfl, rfl⟩
    | some none => exact ⟨rfl, rfl⟩
    | some (some q) =>
      rw [styleFor_some_some]
      by_cases hc : 1 ≤ q ∧ q ≤ (cs.length : ℚ)
      · rw [if_pos hc]; exact ⟨rfl, rfl⟩
      · rw [if_neg hc]; exact ⟨rfl, rfl⟩

theorem C4_updateStyle_amended_witness :
    ∃ c, ([['a'], ['b']] : List Str)[2 - 1]? = some c ∧
      (styleFor [['a'], ['b']] fallbackOpacity (some (some ((2 : ℕ) : ℚ)))).color = some c :=
  (C4_updateStyle_amended demoState [['a'], ['b']] fallbackOpacity (by decide)).1 2
    (by decide) (by decide)

/-- Claim C10 (confirmed).  Every entry of `palettes` has defined colours: the
constructor starts with the empty list, `buildPalettes` (the only operation
that appends) pushes only definitions with present or successfully resolved
colours, `importData` and `selectVariable` leave the list unchanged, and under
the invariant the palette entry selected by `updateStyle`, when it exists,
always carries a colour list (which `updateStyle` then uses). -/
theorem C10_palettes_invariant :
    (∀ opts, (mkChoroMap opts).palettes = [] ∧
      ∀ p ∈ (mkChoroMap opts).palettes, p.colors.isSome = true) ∧
    (∀ (tbl : PaletteTable) (st : ChoroState), (∀ p ∈ st.palettes, p.colors.isSome = true) →
      ∀ p ∈ (buildPalettes tbl st).palettes, p.colors.isSome = true) ∧
    (∀ input st, (importData input st).palettes = st.palettes) ∧
    (∀ st i, (selectVariable st i).palettes = st.palettes) ∧
    (∀ (st : ChoroState) (p : ColorPalette), (∀ q ∈ st.palettes, q.colors.isSome = true) →
      st.palettes[st.palette]? = some p → ∃ cs, p.colors = some cs) ∧
    (∀ (st : ChoroState) md dv (p : ColorPalette) cs, st.data = some md →
      st.dataView = some dv → st.hasLayer = true →
      st.palettes[st.palette]? = some p → p.colors = some cs →
      ∃ op, updateStyleSpec st = some (cs, op)) := by
  refine ⟨?_, ?_, ?_, ?_, ?_, ?_⟩
  · intro opts
    exact ⟨rfl, by intro p hp; simp [mkChoroMap] at hp⟩
  · intro tbl st hinv p hp
    cases hd : st.data with
    | none =>
      rw [buildPalettes_none hd] at hp
      exact hinv p hp
    | some d =>
      rw [buildPalettes_some hd] at hp
      simp only at hp
      rcases List.mem_append.mp hp with h | h
      · exact hinv p h
      · obtain ⟨df, _, hdf⟩ := List.mem_filterMap.mp h
        exact resolvePalette_colors_isSome hdf
  · intro input st
    cases hd : input.data with
    | some d => simp only [importData, hd]
    | none =>
      cases hvs : input.variables'.getD [] <;> cases hls : input.layers.getD [] <;>
        simp only [importData, hd, hvs, hls]
  · intro st i
    cases hd : st.data with
    | none => cases hv : st.dataView <;> simp [selectVariable, hd, hv]
    | some md =>
      cases hv : st.dataView with
      | none => simp [selectVariable, hd, hv]
      | some dv =>
        by_cases hr : 0 ≤ i ∧ i ≤ (md.variables'.length : ℤ) - 1 <;>
          simp [selectVariable, hd, hv, hr]
  · intro st p hinv hsel
    have hmem : p ∈ st.palettes := by
      obtain ⟨h, rfl⟩ := List.getElem?_eq_some.mp hsel
      exact List.getElem_mem h
    have := hinv p hmem
    exact Option.isSome_iff_exists.mp this
  · intro st md dv p cs hmd hdv hlayer hsel hcols
    refine ⟨(match p.opacity with
      | some q => if q = 0 then defaultOpacityOf st else q
      | none => defaultOpacityOf st), ?_⟩
    simp only [updateStyleSpec, hmd, hdv, hlayer, if_true, hsel, hcols]

theorem C10_palettes_invariant_witness :
    ∃ op, updateStyleSpec demoState = some ([['a'], ['b']], op) :=
  C10_palettes_invariant.2.2.2.2.2 demoState demoMapData (mkDataView [] demoVariable)
    demoPalette [['a'], ['b']] rfl rfl rfl (by decide) (by decide)
